import Mathlib

/-!
Shallow embedding of the hyper-ring broadcast ring buffer
(`src/ringbuffer.rs`, `src/valuebox.rs`) and verification of its
specification.

Modelling conventions:
- `usize` counters are `Nat` with explicit wrap-around `% 2^64`
  (for `AtomicUsize::fetch_add` and plain release-mode addition) or
  saturation at `2^64 - 1` (for `usize::saturating_add`).
- A `ValueBox<T>` cell is an `Option T`: `none` is the uninitialised
  `MaybeUninit` state, `some v` a written value.  The backing array is a
  total function from slot index to cell content (only indices below `N`
  are ever touched, since `i &&& (N - 1) ≤ N - 1`).
- Operations are embedded as pure state transformers; a sequence of
  operations is a fold over the corresponding state.  Writer handles
  carry their `finished : Bool` field, with the shared container threaded
  explicitly.
- The multi-producer writer lifecycle (split / clone / explicit
  mark_as_finished / drop) is a small event-trace semantics over a system
  state recording, for every writer handle ever created, whether it has
  been marked finished and whether it has been dropped.
-/

namespace HyperRing

/-- Modulus of `usize` on the 64-bit target: `AtomicUsize::fetch_add`
wraps modulo `2^64`, and `usize::saturating_add` caps at `2^64 - 1`. -/
def USIZE : Nat := 2 ^ 64

/-- Slot addressing shared by `put` and `retrieve` in both variants:
the index is reduced with the bitmask `index & (N - 1)` (Rust `&` on
`usize`, Lean `&&&` on `Nat`). -/
def slotIndex (N i : Nat) : Nat := i &&& (N - 1)

/-- `SPRingBuffer<T, N>` (ringbuffer.rs lines 21-26): backing array of
`ValueBox` cells, the sole writer's non-atomic `next_write` cell, the
atomic publication counter `next_readable`, and the atomic finish flag. -/
structure SPRingBuffer (T : Type) (N : Nat) where
  data : Nat → Option T
  next_write : Nat
  next_readable : Nat
  is_finished : Bool

/-- `SPRingBuffer::new` (lines 29-36): uninitialised cells, all counters
zero, finish flag false.  No check of any kind is made on `N`. -/
def SPRingBuffer.new (T : Type) (N : Nat) : SPRingBuffer T N :=
  ⟨fun _ => none, 0, 0, false⟩

/-- `SPRingBuffer::retrieve` (lines 54-64): if `cursor >= next_readable`
return `None`, otherwise read the cell at `cursor & (N - 1)`. -/
def SPRingBuffer.retrieve {T : Type} {N : Nat} (rb : SPRingBuffer T N) (cursor : Nat) :
    Option T :=
  if rb.next_readable ≤ cursor then none
  else rb.data (slotIndex N cursor)

/-- `SPRingBuffer::put` (lines 66-84): read `next_write`, bump it by one
(plain write; wraps modulo `2^64` in release mode), store the value at
slot `curr_write_pos & (N - 1)`, then publish by a wrapping fetch-add of
one on `next_readable`. -/
def SPRingBuffer.put {T : Type} {N : Nat} (rb : SPRingBuffer T N) (value : T) :
    SPRingBuffer T N :=
  let curr_write_pos := rb.next_write
  ⟨fun j => if j = slotIndex N curr_write_pos then some value else rb.data j,
    (curr_write_pos + 1) % USIZE,
    (rb.next_readable + 1) % USIZE,
    rb.is_finished⟩

/-- The debug assertion inside `SPRingBuffer::put` (line 79): the value
fetched from `next_readable` just before the increment must equal the
write position taken from `next_write` at the start of the same call.
Stated of the state at entry to `put`: the assertion of that call
succeeds iff `next_readable = next_write` there. -/
def SPRingBuffer.putAssertHolds {T : Type} {N : Nat} (rb : SPRingBuffer T N) : Prop :=
  rb.next_readable = rb.next_write

/-- `SPRingBuffer::mark_as_finished` (lines 87-90): store true into the
finish flag. -/
def SPRingBuffer.mark_as_finished {T : Type} {N : Nat} (rb : SPRingBuffer T N) :
    SPRingBuffer T N :=
  ⟨rb.data, rb.next_write, rb.next_readable, true⟩

/-- A finite sequence of `put` calls by the sole writer. -/
def SPRingBuffer.puts {T : Type} {N : Nat} (rb : SPRingBuffer T N) (vs : List T) :
    SPRingBuffer T N :=
  vs.foldl SPRingBuffer.put rb

/-- `MPRingBuffer<T, N>` (lines 105-111): backing array, atomic
reservation counter `next_write`, atomic publication counter
`next_readable`, and the producer / finish bookkeeping counters. -/
structure MPRingBuffer (T : Type) (N : Nat) where
  data : Nat → Option T
  next_write : Nat
  next_readable : Nat
  producer_count : Nat
  finish_count : Nat

/-- `MPRingBuffer::new` (lines 113-121): uninitialised cells and all four
counters zero.  No check of any kind is made on `N`. -/
def MPRingBuffer.new (T : Type) (N : Nat) : MPRingBuffer T N :=
  ⟨fun _ => none, 0, 0, 0, 0⟩

/-- `MPRingBuffer::retrieve` (lines 141-151): same protocol as the SP
variant. -/
def MPRingBuffer.retrieve {T : Type} {N : Nat} (rb : MPRingBuffer T N) (cursor : Nat) :
    Option T :=
  if rb.next_readable ≤ cursor then none
  else rb.data (slotIndex N cursor)

/-- `MPRingBuffer::put` (lines 153-173): the compare-exchange loop
reserves `curr_write_pos = next_write` and advances `next_write` with
`saturating_add(1)`; the value is stored at `curr_write_pos & (N - 1)`
and published by a wrapping fetch-add of one on `next_readable`.  In the
sequential embedding the loop succeeds on its first iteration. -/
def MPRingBuffer.put {T : Type} {N : Nat} (rb : MPRingBuffer T N) (value : T) :
    MPRingBuffer T N :=
  let curr_write_pos := rb.next_write
  ⟨fun j => if j = slotIndex N curr_write_pos then some value else rb.data j,
    min (curr_write_pos + 1) (USIZE - 1),
    (rb.next_readable + 1) % USIZE,
    rb.producer_count,
    rb.finish_count⟩

/-- `MPRingBuffer::mark_as_finished` (lines 176-179): wrapping fetch-add
of one on `finish_count`. -/
def MPRingBuffer.mark_as_finished {T : Type} {N : Nat} (rb : MPRingBuffer T N) :
    MPRingBuffer T N :=
  ⟨rb.data, rb.next_write, rb.next_readable, rb.producer_count,
    (rb.finish_count + 1) % USIZE⟩

/-- The producer-registration fetch-add on `producer_count`, performed by
`MPRingBuffer::split` (lines 124-125) and by `RBWriterClonable::clone`
(lines 290-292). -/
def MPRingBuffer.addProducer {T : Type} {N : Nat} (rb : MPRingBuffer T N) :
    MPRingBuffer T N :=
  ⟨rb.data, rb.next_write, rb.next_readable, (rb.producer_count + 1) % USIZE,
    rb.finish_count⟩

/-- `MPRingBuffer::is_finished` (lines 182-188): true iff
`finish_count == producer_count`. -/
def MPRingBuffer.is_finished {T : Type} {N : Nat} (rb : MPRingBuffer T N) : Bool :=
  rb.finish_count == rb.producer_count

/-- A finite sequence of `put` calls (in the sequential embedding the
writer identity does not matter: every `put` acts on the container). -/
def MPRingBuffer.puts {T : Type} {N : Nat} (rb : MPRingBuffer T N) (vs : List T) :
    MPRingBuffer T N :=
  vs.foldl MPRingBuffer.put rb

/-- The `RBContainer` trait (lines 12-18), restricted to the read-only
capabilities the reader uses through its container back-reference. -/
structure RBContainerOps (T C : Type) where
  retrieve : C → Nat → Option T
  is_finished : C → Bool
  next_readable : C → Nat

/-- The trait implementation of `SPRingBuffer` (lines 53-102). -/
def spOps (T : Type) (N : Nat) : RBContainerOps T (SPRingBuffer T N) :=
  ⟨fun rb c => rb.retrieve c, fun rb => rb.is_finished, fun rb => rb.next_readable⟩

/-- The trait implementation of `MPRingBuffer` (lines 140-195). -/
def mpOps (T : Type) (N : Nat) : RBContainerOps T (MPRingBuffer T N) :=
  ⟨fun rb c => rb.retrieve c, fun rb => rb.is_finished, fun rb => rb.next_readable⟩

/-- `RBReader` (lines 198-202): a back-reference to the container and a
local cursor. -/
structure RBReader (C : Type) where
  ring_buffer : C
  cursor : Nat

/-- `Clone for RBReader` (lines 206-214): same container, cursor reset
to zero. -/
def RBReader.clone {C : Type} (r : RBReader C) : RBReader C :=
  ⟨r.ring_buffer, 0⟩

/-- `RBReader::next` (lines 216-222): retrieve at the cursor; on a hit
advance the cursor by one and return the value, otherwise return `None`
and leave the cursor unchanged. -/
def RBReader.next {T C : Type} (ops : RBContainerOps T C) (r : RBReader C) :
    Option T × RBReader C :=
  match ops.retrieve r.ring_buffer r.cursor with
  | some v => (some v, ⟨r.ring_buffer, r.cursor + 1⟩)
  | none => (none, r)

/-- `RBReader::is_finished` (lines 224-227): container finished and the
cursor has caught up with `next_readable`. -/
def RBReader.is_finished {T C : Type} (ops : RBContainerOps T C) (r : RBReader C) :
    Bool :=
  ops.is_finished r.ring_buffer && (r.cursor == ops.next_readable r.ring_buffer)

/-- A sequence of `n` consecutive `next` calls (return values dropped). -/
def RBReader.nextN {T C : Type} (ops : RBContainerOps T C) : Nat → RBReader C → RBReader C
  | 0, r => r
  | n + 1, r => RBReader.nextN ops n (RBReader.next ops r).2

/-- Drain loop: call `next` until it returns `None`, collecting the
values in order.  `fuel` bounds the number of calls; any
`fuel ≥ next_readable - cursor` drains to completion. -/
def RBReader.drain {T C : Type} (ops : RBContainerOps T C) : Nat → RBReader C → List T
  | 0, _ => []
  | fuel + 1, r =>
    match RBReader.next ops r with
    | (some v, r2) => v :: RBReader.drain ops fuel r2
    | (none, _) => []

/-- `RBWriter::mark_as_finished` (lines 244-250): if the handle's
`finished` field is still false, set it and forward to the container;
otherwise do nothing.  The writer is its `finished : Bool` field, the
container is threaded explicitly. -/
def RBWriter.mark_as_finished {T : Type} {N : Nat} (finished : Bool)
    (rb : SPRingBuffer T N) : Bool × SPRingBuffer T N :=
  if finished then (finished, rb)
  else (true, rb.mark_as_finished)

/-- `Drop for RBWriter` (lines 253-257): destruction calls
`mark_as_finished`. -/
def RBWriter.drop {T : Type} {N : Nat} (finished : Bool) (rb : SPRingBuffer T N) :
    Bool × SPRingBuffer T N :=
  RBWriter.mark_as_finished finished rb

/-- `RBWriterClonable::mark_as_finished` (lines 273-279). -/
def RBWriterClonable.mark_as_finished {T : Type} {N : Nat} (finished : Bool)
    (rb : MPRingBuffer T N) : Bool × MPRingBuffer T N :=
  if finished then (finished, rb)
  else (true, rb.mark_as_finished)

/-- `Drop for RBWriterClonable` (lines 282-286). -/
def RBWriterClonable.drop {T : Type} {N : Nat} (finished : Bool)
    (rb : MPRingBuffer T N) : Bool × MPRingBuffer T N :=
  RBWriterClonable.mark_as_finished finished rb

/-- One multi-producer writer handle as the trace semantics tracks it:
its `finished` field, plus whether the handle has been dropped. -/
structure WriterHandle where
  finished : Bool
  dropped : Bool
deriving DecidableEq

/-- Events of the multi-producer writer lifecycle.  Writer handles are
identified by their creation order. -/
inductive MPEvent (T : Type) where
  | splitE : MPEvent T
  | cloneE (i : Nat) : MPEvent T
  | markE (i : Nat) : MPEvent T
  | dropE (i : Nat) : MPEvent T
  | putE (v : T) : MPEvent T

/-- System state for the MP lifecycle: the container plus the record of
every writer handle ever created. -/
structure MPSystem (T : Type) (N : Nat) where
  rb : MPRingBuffer T N
  writers : List WriterHandle

/-- Fresh container, no writer handle created yet. -/
def MPSystem.init (T : Type) (N : Nat) : MPSystem T N :=
  ⟨MPRingBuffer.new T N, []⟩

/-- One lifecycle step.  `splitE` (`MPRingBuffer::split`, lines 123-137)
and `cloneE` (`Clone for RBWriterClonable`, lines 288-298) register a new
unfinished handle and fetch-add `producer_count`.  `markE` is the
handle's `mark_as_finished` (lines 273-279): a no-op when the handle is
already finished.  `dropE` (lines 282-286) calls `mark_as_finished` and
retires the handle.  Events that name a dropped or never-created handle
are impossible in Rust (the handle no longer exists) and are no-ops. -/
def MPSystem.step {T : Type} {N : Nat} (s : MPSystem T N) : MPEvent T → MPSystem T N
  | MPEvent.splitE => ⟨s.rb.addProducer, s.writers ++ [⟨false, false⟩]⟩
  | MPEvent.cloneE i =>
    match s.writers[i]? with
    | some w =>
      if w.dropped then s
      else ⟨s.rb.addProducer, s.writers ++ [⟨false, false⟩]⟩
    | none => s
  | MPEvent.markE i =>
    match s.writers[i]? with
    | some w =>
      if w.dropped then s
      else if w.finished then s
      else ⟨s.rb.mark_as_finished, s.writers.set i ⟨true, false⟩⟩
    | none => s
  | MPEvent.dropE i =>
    match s.writers[i]? with
    | some w =>
      if w.dropped then s
      else if w.finished then ⟨s.rb, s.writers.set i ⟨true, true⟩⟩
      else ⟨s.rb.mark_as_finished, s.writers.set i ⟨true, true⟩⟩
    | none => s
  | MPEvent.putE v => ⟨s.rb.put v, s.writers⟩

/-- Run a lifecycle trace from the fresh container. -/
def MPSystem.run (T : Type) (N : Nat) (es : List (MPEvent T)) : MPSystem T N :=
  es.foldl MPSystem.step (MPSystem.init T N)

/-- True iff every writer handle ever created has been dropped. -/
def MPSystem.allDropped {T : Type} {N : Nat} (s : MPSystem T N) : Bool :=
  s.writers.all fun w => w.dropped

/-- Bookkeeping invariant of the MP lifecycle: `producer_count` is the
number of writer handles ever created and `finish_count` the number of
handles whose `finished` field is set, both modulo `2^64`. -/
def MPSystem.goodCounts {T : Type} {N : Nat} (s : MPSystem T N) : Prop :=
  s.rb.producer_count = s.writers.length % USIZE
  ∧ s.rb.finish_count = (s.writers.countP fun w => w.finished) % USIZE

theorem usize_pos : 0 < USIZE := by norm_num [USIZE]

/-- Helper: a sequence of SP puts preserves `next_readable = next_write`
(both counters advance by the same wrapping increment on every put). -/
theorem sp_puts_counters_eq {T : Type} {N : Nat} (vs : List T) :
    ∀ rb : SPRingBuffer T N, rb.next_readable = rb.next_write →
      (rb.puts vs).next_readable = (rb.puts vs).next_write := by
  induction vs with
  | nil => exact fun rb h => h
  | cons v vs ih =>
    intro rb h
    have hstep : rb.puts (v :: vs) = (rb.put v).puts vs := rfl
    rw [hstep]
    exact ih _ (by simp [SPRingBuffer.put, h])

/-- Helper: closed form of `next_readable` after a sequence of MP puts
(wrapping fetch-add of one per put). -/
theorem mp_puts_next_readable {T : Type} {N : Nat} (vs : List T) :
    ∀ rb : MPRingBuffer T N, rb.next_readable < USIZE →
      (rb.puts vs).next_readable = (rb.next_readable + vs.length) % USIZE := by
  induction vs with
  | nil =>
    intro rb h
    have : rb.puts [] = rb := rfl
    rw [this]
    simp [Nat.mod_eq_of_lt h]
  | cons v vs ih =>
    intro rb h
    have hstep : rb.puts (v :: vs) = (rb.put v).puts vs := rfl
    rw [hstep, ih _ (Nat.mod_lt _ usize_pos)]
    show ((rb.next_readable + 1) % USIZE + vs.length) % USIZE
      = (rb.next_readable + (v :: vs).length) % USIZE
    rw [Nat.mod_add_mod]
    congr 1
    simp
    omega

/-- Helper: closed form of `next_write` after a sequence of MP puts
(saturating add of one per put). -/
theorem mp_puts_next_write {T : Type} {N : Nat} (vs : List T) :
    ∀ rb : MPRingBuffer T N, rb.next_write ≤ USIZE - 1 →
      (rb.puts vs).next_write = min (rb.next_write + vs.length) (USIZE - 1) := by
  induction vs with
  | nil =>
    intro rb h
    have : rb.puts [] = rb := rfl
    rw [this]
    simp
    omega
  | cons v vs ih =>
    intro rb h
    have hstep : rb.puts (v :: vs) = (rb.put v).puts vs := rfl
    rw [hstep, ih _ (by simp [MPRingBuffer.put])]
    simp [MPRingBuffer.put]
    omega

/-- C3: for every reader over either container shape (any `RBContainer`
instance) and every state, `RBReader::is_finished` returns true iff the
container reports finished and the reader's cursor equals the
container's `next_readable` counter. -/
theorem reader_is_finished_iff (T C : Type) (ops : RBContainerOps T C) (r : RBReader C) :
    RBReader.is_finished ops r = true ↔
      (ops.is_finished r.ring_buffer = true
        ∧ r.cursor = ops.next_readable r.ring_buffer) := by
  simp [RBReader.is_finished]

/-- C8: cloning any reader, also one whose cursor has advanced past
zero, yields a reader bound to the same container with cursor zero. -/
theorem reader_clone_fresh (C : Type) (r : RBReader C) :
    (RBReader.clone r).ring_buffer = r.ring_buffer ∧ (RBReader.clone r).cursor = 0 :=
  ⟨rfl, rfl⟩

/-- C4: for both container variants, `retrieve cursor` returns `None`
when `cursor ≥ next_readable` (in particular at equality) and otherwise
returns the cell content at slot index `cursor & (N - 1)`. -/
theorem retrieve_boundary (T : Type) (N : Nat) :
    (∀ (rb : SPRingBuffer T N) (cursor : Nat),
        rb.next_readable ≤ cursor → rb.retrieve cursor = none)
    ∧ (∀ (rb : SPRingBuffer T N) (cursor : Nat),
        cursor < rb.next_readable → rb.retrieve cursor = rb.data (slotIndex N cursor))
    ∧ (∀ (rb : MPRingBuffer T N) (cursor : Nat),
        rb.next_readable ≤ cursor → rb.retrieve cursor = none)
    ∧ (∀ (rb : MPRingBuffer T N) (cursor : Nat),
        cursor < rb.next_readable → rb.retrieve cursor = rb.data (slotIndex N cursor)) :=
  ⟨fun rb c h => by simp only [SPRingBuffer.retrieve]; rw [if_pos h],
   fun rb c h => by simp only [SPRingBuffer.retrieve]; rw [if_neg (Nat.not_le.mpr h)],
   fun rb c h => by simp only [MPRingBuffer.retrieve]; rw [if_pos h],
   fun rb c h => by simp only [MPRingBuffer.retrieve]; rw [if_neg (Nat.not_le.mpr h)]⟩

/-- Witness for C4 at concrete states: a fresh buffer returns `None` at
cursor `0 = next_readable`; after one put, cursor 0 reads the cell at
slot `0 & 3`. -/
theorem retrieve_boundary_witness :
    (SPRingBuffer.new Nat 4).retrieve 0 = none
    ∧ ((SPRingBuffer.new Nat 4).put 7).retrieve 0
        = ((SPRingBuffer.new Nat 4).put 7).data (slotIndex 4 0) :=
  ⟨(retrieve_boundary Nat 4).1 (SPRingBuffer.new Nat 4) 0 (by decide),
   (retrieve_boundary Nat 4).2.1 ((SPRingBuffer.new Nat 4).put 7) 0 (by decide)⟩

/-- C6: for both writer variants, a second `mark_as_finished` on an
already-finished handle is a no-op (so repeated calls have no effect
beyond the first), and dropping a writer whose `finished` field is
already set leaves the container untouched (no second increment of
`finish_count`, no second store of the finish flag). -/
theorem writer_mark_idempotent (T : Type) (N : Nat) :
    (∀ (f : Bool) (rb : SPRingBuffer T N),
        RBWriter.mark_as_finished (RBWriter.mark_as_finished f rb).1
            (RBWriter.mark_as_finished f rb).2
          = RBWriter.mark_as_finished f rb)
    ∧ (∀ (f : Bool) (rb : MPRingBuffer T N),
        RBWriterClonable.mark_as_finished (RBWriterClonable.mark_as_finished f rb).1
            (RBWriterClonable.mark_as_finished f rb).2
          = RBWriterClonable.mark_as_finished f rb)
    ∧ (∀ rb : SPRingBuffer T N, RBWriter.drop true rb = (true, rb))
    ∧ (∀ rb : MPRingBuffer T N, RBWriterClonable.drop true rb = (true, rb)) := by
  refine ⟨fun f rb => ?_, fun f rb => ?_, fun rb => rfl, fun rb => rfl⟩ <;>
    cases f <;>
      simp [RBWriter.mark_as_finished, RBWriterClonable.mark_as_finished]

/-- C5: after any sequence of puts on a fresh container of either
variant, `next_readable ≤ next_write`.  For SP the two counters stay
equal (both wrap together); for MP `next_write` saturates at
`2^64 - 1` while `next_readable` wraps, and the wrapped value never
exceeds the saturated one. -/
theorem counters_ordered (T : Type) (N : Nat) (vs : List T) :
    ((SPRingBuffer.new T N).puts vs).next_readable
        ≤ ((SPRingBuffer.new T N).puts vs).next_write
    ∧ ((MPRingBuffer.new T N).puts vs).next_readable
        ≤ ((MPRingBuffer.new T N).puts vs).next_write := by
  constructor
  · exact le_of_eq (sp_puts_counters_eq vs _ rfl)
  · rw [mp_puts_next_readable vs _ (by simpa [MPRingBuffer.new] using usize_pos),
        mp_puts_next_write vs _ (by simp [MPRingBuffer.new])]
    simp only [MPRingBuffer.new, Nat.zero_add]
    have h1 : vs.length % USIZE ≤ vs.length := Nat.mod_le vs.length USIZE
    have h2 : vs.length % USIZE < USIZE := Nat.mod_lt _ usize_pos
    omega

/-- C9: under sequential use by the sole writer starting from a fresh
buffer, every state reached satisfies the debug assertion of the next
`SPRingBuffer::put`: the value fetched from `next_readable` equals the
write position just reserved from `next_write`. -/
theorem sp_put_assertion_safe (T : Type) (N : Nat) (vs : List T) :
    ((SPRingBuffer.new T N).puts vs).putAssertHolds :=
  sp_puts_counters_eq vs _ rfl

/-- C7: `RBReader::next` advances the cursor by exactly one and returns
the value when `retrieve` hits, and returns `None` leaving the cursor
unchanged otherwise; hence the cursor is non-decreasing across any
sequence of `next` calls, and after every successful read it is at most
`next_readable` of the container (both variants). -/
theorem reader_next_cursor (T : Type) (N : Nat) :
    (∀ (C : Type) (ops : RBContainerOps T C) (r : RBReader C) (v : T),
        ops.retrieve r.ring_buffer r.cursor = some v →
          RBReader.next ops r = (some v, ⟨r.ring_buffer, r.cursor + 1⟩))
    ∧ (∀ (C : Type) (ops : RBContainerOps T C) (r : RBReader C),
        ops.retrieve r.ring_buffer r.cursor = none →
          RBReader.next ops r = (none, r))
    ∧ (∀ (C : Type) (ops : RBContainerOps T C) (n : Nat) (r : RBReader C),
        r.cursor ≤ (RBReader.nextN ops n r).cursor)
    ∧ (∀ (rb : SPRingBuffer T N) (c : Nat) (v : T),
        (RBReader.next (spOps T N) ⟨rb, c⟩).1 = some v →
          (RBReader.next (spOps T N) ⟨rb, c⟩).2.cursor ≤ rb.next_readable)
    ∧ (∀ (rb : MPRingBuffer T N) (c : Nat) (v : T),
        (RBReader.next (mpOps T N) ⟨rb, c⟩).1 = some v →
          (RBReader.next (mpOps T N) ⟨rb, c⟩).2.cursor ≤ rb.next_readable) := by
  have hmono : ∀ (C : Type) (ops : RBContainerOps T C) (n : Nat) (r : RBReader C),
      r.cursor ≤ (RBReader.nextN ops n r).cursor := by
    intro C ops n
    induction n with
    | zero => exact fun r => le_refl _
    | succ n ih =>
      intro r
      have h1 : r.cursor ≤ (RBReader.next ops r).2.cursor := by
        rcases h : ops.retrieve r.ring_buffer r.cursor with _ | v <;>
          simp [RBReader.next, h]
      exact le_trans h1 (ih _)
  refine ⟨fun C ops r v h => by simp [RBReader.next, h],
    fun C ops r h => by simp [RBReader.next, h], hmono, ?_, ?_⟩
  · intro rb c v h
    rcases hr : rb.retrieve c with _ | w
    · simp [RBReader.next, spOps, hr] at h
    · have hc : c < rb.next_readable := by
        by_contra hge
        simp [SPRingBuffer.retrieve, Nat.le_of_not_lt hge] at hr
      have : RBReader.next (spOps T N) ⟨rb, c⟩ = (some w, ⟨rb, c + 1⟩) := by
        simp [RBReader.next, spOps, hr]
      rw [this]
      exact hc
  · intro rb c v h
    rcases hr : rb.retrieve c with _ | w
    · simp [RBReader.next, mpOps, hr] at h
    · have hc : c < rb.next_readable := by
        by_contra hge
        simp [MPRingBuffer.retrieve, Nat.le_of_not_lt hge] at hr
      have : RBReader.next (mpOps T N) ⟨rb, c⟩ = (some w, ⟨rb, c + 1⟩) := by
        simp [RBReader.next, mpOps, hr]
      rw [this]
      exact hc

/-- Witness for C7: on a buffer holding one value, a successful read at
cursor 0 leaves the cursor at most `next_readable`. -/
theorem reader_next_cursor_witness :
    (RBReader.next (spOps Nat 4) ⟨(SPRingBuffer.new Nat 4).put 7, 0⟩).2.cursor
      ≤ ((SPRingBuffer.new Nat 4).put 7).next_readable :=
  (reader_next_cursor Nat 4).2.2.2.1 ((SPRingBuffer.new Nat 4).put 7) 0 7 (by decide)

/-- Helper: on a power-of-two capacity the bitmask reduction is exactly
reduction modulo the capacity. -/
theorem slotIndex_pow_two (k i : Nat) : slotIndex (2 ^ k) i = i % 2 ^ k := by
  simp [slotIndex, Nat.and_pow_two_sub_one_eq_mod]

/-- Helper: unfolding of one drain step. -/
theorem drain_succ {T C : Type} (ops : RBContainerOps T C) (fuel : Nat) (r : RBReader C) :
    RBReader.drain ops (fuel + 1) r
      = match RBReader.next ops r with
        | (some v, r2) => v :: RBReader.drain ops fuel r2
        | (none, _) => [] := rfl

/-- Helper: state after the sole writer puts `vs` into a fresh SP buffer
of power-of-two capacity, without overrun: both counters equal the
number of puts and slot `i` holds the i-th value. -/
theorem sp_puts_state (T : Type) (k : Nat) (hNU : 2 ^ k < USIZE) :
    ∀ vs : List T, vs.length ≤ 2 ^ k →
      ((SPRingBuffer.new T (2 ^ k)).puts vs).next_write = vs.length
      ∧ ((SPRingBuffer.new T (2 ^ k)).puts vs).next_readable = vs.length
      ∧ ∀ i (h : i < vs.length),
          ((SPRingBuffer.new T (2 ^ k)).puts vs).data i = some vs[i] := by
  intro vs
  induction vs using List.reverseRecOn with
  | nil => exact fun _ => ⟨rfl, rfl, fun i h => absurd h (by simp)⟩
  | append_singleton vs v ih =>
    intro hlen
    have hvs : vs.length < 2 ^ k := by simp at hlen; omega
    obtain ⟨hw, hr, hdata⟩ := ih (le_of_lt hvs)
    have hputs : (SPRingBuffer.new T (2 ^ k)).puts (vs ++ [v])
        = ((SPRingBuffer.new T (2 ^ k)).puts vs).put v := by
      simp [SPRingBuffer.puts, List.foldl_append]
    rw [hputs]
    set s := (SPRingBuffer.new T (2 ^ k)).puts vs with hs
    have hslot : slotIndex (2 ^ k) s.next_write = vs.length := by
      rw [hw, slotIndex_pow_two, Nat.mod_eq_of_lt hvs]
    refine ⟨?_, ?_, ?_⟩
    · show (s.next_write + 1) % USIZE = (vs ++ [v]).length
      rw [hw]
      simp only [List.length_append, List.length_singleton]
      exact Nat.mod_eq_of_lt (by omega)
    · show (s.next_readable + 1) % USIZE = (vs ++ [v]).length
      rw [hr]
      simp only [List.length_append, List.length_singleton]
      exact Nat.mod_eq_of_lt (by omega)
    · intro i h
      show (if i = slotIndex (2 ^ k) s.next_write then some v else s.data i)
          = some (vs ++ [v])[i]
      rw [hslot]
      by_cases hi : i = vs.length
      · subst hi
        simp
      · have hi2 : i < vs.length := by simp at h; omega
        rw [if_neg hi, hdata i hi2]
        congr 1
        exact (List.getElem_append_left hi2).symm

/-- Helper: a reader whose container publishes exactly `ws` at
consecutive cursors `c, c+1, ...` drains exactly `ws` with any
sufficient fuel (the call after the last value returns `None`). -/
theorem sp_drain_spec (T : Type) (N : Nat) :
    ∀ (ws : List T) (c fuel : Nat) (rb : SPRingBuffer T N),
      rb.next_readable = c + ws.length →
      (∀ i (h : i < ws.length), rb.retrieve (c + i) = some ws[i]) →
      ws.length ≤ fuel →
      RBReader.drain (spOps T N) fuel ⟨rb, c⟩ = ws := by
  intro ws
  induction ws with
  | nil =>
    intro c fuel rb hr _ _
    have hnone : rb.retrieve c = none := by
      simp [SPRingBuffer.retrieve, hr]
    cases fuel with
    | zero => rfl
    | succ fuel =>
      rw [drain_succ, show RBReader.next (spOps T N) ⟨rb, c⟩ = (none, ⟨rb, c⟩) from by
        simp [RBReader.next, spOps, hnone]]
  | cons w ws ih =>
    intro c fuel rb hr hret hfuel
    cases fuel with
    | zero => simp at hfuel
    | succ fuel =>
      have h0 : rb.retrieve c = some w := by simpa using hret 0 (by simp)
      have hnext : RBReader.next (spOps T N) ⟨rb, c⟩ = (some w, ⟨rb, c + 1⟩) := by
        simp [RBReader.next, spOps, h0]
      rw [drain_succ, hnext]
      show w :: RBReader.drain (spOps T N) fuel ⟨rb, c + 1⟩ = w :: ws
      congr 1
      apply ih (c + 1) fuel rb
      · simp at hr ⊢; omega
      · intro i hi
        have hh := hret (i + 1) (by simp; omega)
        rw [show c + (i + 1) = c + 1 + i by omega] at hh
        simpa using hh
      · simp at hfuel; omega

/-- C1: SP variant, sole writer, no overrun.  After the writer puts any
finite sequence `vs` with `vs.length ≤ N` into a fresh power-of-two
buffer, a fresh reader at cursor 0 that drains to completion observes
exactly `vs`, in order (any fuel of at least `vs.length` calls suffices
and the drain then stops on `None`). -/
theorem sp_broadcast_in_order (T : Type) (k : Nat) (vs : List T) (fuel : Nat)
    (hNU : 2 ^ k < USIZE) (hlen : vs.length ≤ 2 ^ k) (hfuel : vs.length ≤ fuel) :
    RBReader.drain (spOps T (2 ^ k)) fuel
        ⟨(SPRingBuffer.new T (2 ^ k)).puts vs, 0⟩ = vs := by
  obtain ⟨hw, hr, hdata⟩ := sp_puts_state T k hNU vs hlen
  apply sp_drain_spec T (2 ^ k) vs 0 fuel _ (by omega) ?_ hfuel
  intro i hi
  have hmod : slotIndex (2 ^ k) (0 + i) = i := by
    rw [slotIndex_pow_two, Nat.zero_add, Nat.mod_eq_of_lt (by omega)]
  simp only [SPRingBuffer.retrieve, hmod]
  rw [if_neg (by omega)]
  exact hdata i hi

/-- Witness for C1: three values through a capacity-4 buffer come back
in order. -/
theorem sp_broadcast_in_order_witness :
    RBReader.drain (spOps Nat (2 ^ 2)) 5
        ⟨(SPRingBuffer.new Nat (2 ^ 2)).puts [3, 1, 2], 0⟩ = [3, 1, 2] :=
  sp_broadcast_in_order Nat 2 [3, 1, 2] 5 (by decide) (by decide) (by decide)

/-- Helper: a positive capacity that is no power of two shares its top
bit with its predecessor, so the power-of-two test value `N & (N - 1)`
is nonzero. -/
theorem land_pred_ne_zero (N : Nat) (h0 : 0 < N) (hnp : ∀ k : Nat, N ≠ 2 ^ k) :
    N &&& (N - 1) ≠ 0 := by
  intro hz
  set k := Nat.log2 N with hk
  have h1 : 2 ^ k ≤ N := Nat.log2_self_le (by omega)
  have h2 : N < 2 ^ (k + 1) := Nat.lt_log2_self
  have h3 : 2 ^ k < N := lt_of_le_of_ne h1 (fun e => hnp k e.symm)
  have hpow : 2 ^ (k + 1) = 2 * 2 ^ k := by ring
  have hd1 : N / 2 ^ k = 1 := Nat.div_eq_of_lt_le (by omega) (by omega)
  have hd2 : (N - 1) / 2 ^ k = 1 := Nat.div_eq_of_lt_le (by omega) (by omega)
  have tb1 : N.testBit k = true := by
    rw [Nat.testBit_to_div_mod, hd1]
    rfl
  have tb2 : (N - 1).testBit k = true := by
    rw [Nat.testBit_to_div_mod, hd2]
    rfl
  have hb : (N &&& (N - 1)).testBit k = true := by
    rw [Nat.testBit_land, tb1, tb2]
    rfl
  rw [hz, Nat.zero_testBit] at hb
  exact Bool.false_ne_true hb

/-- C10: construction never checks the capacity.  `new` of either
variant is defined for every `N` (power of two or not) with all counters
zero; `put` and `retrieve` reduce indices with the bitmask
`index & (N - 1)` unconditionally; and for every positive capacity that
is not a power of two this bitmask addressing differs from `index % N`
(witnessed at `index = N`). -/
theorem capacity_not_validated :
    (∀ (T : Type) (N : Nat),
        (SPRingBuffer.new T N).next_write = 0
        ∧ (SPRingBuffer.new T N).next_readable = 0
        ∧ (SPRingBuffer.new T N).is_finished = false)
    ∧ (∀ (T : Type) (N : Nat),
        (MPRingBuffer.new T N).next_write = 0
        ∧ (MPRingBuffer.new T N).next_readable = 0
        ∧ (MPRingBuffer.new T N).producer_count = 0
        ∧ (MPRingBuffer.new T N).finish_count = 0)
    ∧ (∀ (T : Type) (N : Nat) (rb : SPRingBuffer T N) (v : T),
        (rb.put v).data (slotIndex N rb.next_write) = some v)
    ∧ (∀ (T : Type) (N : Nat) (rb : MPRingBuffer T N) (v : T),
        (rb.put v).data (slotIndex N rb.next_write) = some v)
    ∧ (∀ (T : Type) (N : Nat) (rb : MPRingBuffer T N) (c : Nat),
        c < rb.next_readable → rb.retrieve c = rb.data (slotIndex N c))
    ∧ (∀ N : Nat, 0 < N → (∀ k : Nat, N ≠ 2 ^ k) → slotIndex N N ≠ N % N) :=
  ⟨fun _ _ => ⟨rfl, rfl, rfl⟩,
   fun _ _ => ⟨rfl, rfl, rfl, rfl⟩,
   fun _ N rb v => by simp [SPRingBuffer.put],
   fun _ N rb v => by simp [MPRingBuffer.put],
   fun _ N rb c h => by
     simp only [MPRingBuffer.retrieve]
     rw [if_neg (Nat.not_le.mpr h)],
   fun N h0 hnp => by
     rw [Nat.mod_self]
     simpa [slotIndex] using land_pred_ne_zero N h0 hnp⟩

/-- Witness for C10 at the non-power-of-two capacity 6: slot addressing
of index 6 gives `6 & 5 = 4`, while `6 % 6 = 0`. -/
theorem capacity_not_validated_witness : slotIndex 6 6 ≠ 6 % 6 :=
  capacity_not_validated.2.2.2.2.2 6 (by decide) (by
    intro k h
    have hk : k < 3 := by
      by_contra hge
      push_neg at hge
      have h8 : (2 : Nat) ^ 3 ≤ 2 ^ k := Nat.pow_le_pow_right (by norm_num) hge
      omega
    interval_cases k <;> norm_num at h)

/-- Helper: setting an element whose predicate value flips from false to
true raises `countP` by one. -/
theorem countP_set_flip {α : Type} (p : α → Bool) :
    ∀ (l : List α) (i : Nat) (a w : α), l[i]? = some w → p w = false → p a = true →
      (l.set i a).countP p = l.countP p + 1 := by
  intro l
  induction l with
  | nil => intro i a w h; simp at h
  | cons x l ih =>
    intro i a w h hw ha
    cases i with
    | zero =>
      simp at h
      subst h
      simp [List.countP_cons, hw, ha]
    | succ i =>
      simp only [List.getElem?_cons_succ] at h
      simp only [List.set_cons_succ, List.countP_cons, ih i a w h hw ha]
      omega

/-- Helper: setting an element to one with the same predicate value
leaves `countP` unchanged. -/
theorem countP_set_same {α : Type} (p : α → Bool) :
    ∀ (l : List α) (i : Nat) (a w : α), l[i]? = some w → p w = p a →
      (l.set i a).countP p = l.countP p := by
  intro l
  induction l with
  | nil => intro i a w h; simp at h
  | cons x l ih =>
    intro i a w h hw
    cases i with
    | zero =>
      simp at h
      subst h
      simp [List.countP_cons, hw]
    | succ i =>
      simp only [List.getElem?_cons_succ] at h
      simp only [List.set_cons_succ, List.countP_cons, ih i a w h hw]

/-- Helper: every lifecycle step preserves the counter bookkeeping
invariant. -/
theorem step_goodCounts {T : Type} {N : Nat} (s : MPSystem T N) (e : MPEvent T)
    (h : MPSystem.goodCounts s) : MPSystem.goodCounts (s.step e) := by
  obtain ⟨hp, hf⟩ := h
  cases e with
  | splitE =>
    refine ⟨?_, ?_⟩
    · show (s.rb.producer_count + 1) % USIZE
          = (s.writers ++ [(⟨false, false⟩ : WriterHandle)]).length % USIZE
      rw [hp, Nat.mod_add_mod]
      simp
    · show s.rb.finish_count
          = ((s.writers ++ [(⟨false, false⟩ : WriterHandle)]).countP
              fun w => w.finished) % USIZE
      rw [hf]
      simp [List.countP_append]
  | putE v => exact ⟨hp, hf⟩
  | cloneE i =>
    cases hq : s.writers[i]? with
    | none =>
      have hid : s.step (MPEvent.cloneE i) = s := by simp [MPSystem.step, hq]
      rw [hid]
      exact ⟨hp, hf⟩
    | some w =>
      by_cases hd : w.dropped
      · have hid : s.step (MPEvent.cloneE i) = s := by simp [MPSystem.step, hq, hd]
        rw [hid]
        exact ⟨hp, hf⟩
      · have hst : s.step (MPEvent.cloneE i)
            = ⟨s.rb.addProducer, s.writers ++ [⟨false, false⟩]⟩ := by
          simp [MPSystem.step, hq, hd]
        rw [hst]
        refine ⟨?_, ?_⟩
        · show (s.rb.producer_count + 1) % USIZE
              = (s.writers ++ [(⟨false, false⟩ : WriterHandle)]).length % USIZE
          rw [hp, Nat.mod_add_mod]
          simp
        · show s.rb.finish_count
              = ((s.writers ++ [(⟨false, false⟩ : WriterHandle)]).countP
                  fun w => w.finished) % USIZE
          rw [hf]
          simp [List.countP_append]
  | markE i =>
    cases hq : s.writers[i]? with
    | none =>
      have hid : s.step (MPEvent.markE i) = s := by simp [MPSystem.step, hq]
      rw [hid]
      exact ⟨hp, hf⟩
    | some w =>
      by_cases hd : w.dropped
      · have hid : s.step (MPEvent.markE i) = s := by simp [MPSystem.step, hq, hd]
        rw [hid]
        exact ⟨hp, hf⟩
      · by_cases hfin : w.finished
        · have hid : s.step (MPEvent.markE i) = s := by
            simp [MPSystem.step, hq, hd, hfin]
          rw [hid]
          exact ⟨hp, hf⟩
        · have hst : s.step (MPEvent.markE i)
              = ⟨s.rb.mark_as_finished, s.writers.set i ⟨true, false⟩⟩ := by
            simp [MPSystem.step, hq, hd, hfin]
          rw [hst]
          refine ⟨by simpa using hp, ?_⟩
          show (s.rb.finish_count + 1) % USIZE
              = ((s.writers.set i ⟨true, false⟩).countP fun w => w.finished) % USIZE
          rw [hf, Nat.mod_add_mod,
            countP_set_flip (fun w => w.finished) s.writers i ⟨true, false⟩ w hq
              (by simpa using hfin) rfl]
  | dropE i =>
    cases hq : s.writers[i]? with
    | none =>
      have hid : s.step (MPEvent.dropE i) = s := by simp [MPSystem.step, hq]
      rw [hid]
      exact ⟨hp, hf⟩
    | some w =>
      by_cases hd : w.dropped
      · have hid : s.step (MPEvent.dropE i) = s := by simp [MPSystem.step, hq, hd]
        rw [hid]
        exact ⟨hp, hf⟩
      · by_cases hfin : w.finished
        · have hst : s.step (MPEvent.dropE i)
              = ⟨s.rb, s.writers.set i ⟨true, true⟩⟩ := by
            simp [MPSystem.step, hq, hd, hfin]
          rw [hst]
          refine ⟨by simpa using hp, ?_⟩
          show s.rb.finish_count
              = ((s.writers.set i ⟨true, true⟩).countP fun w => w.finished) % USIZE
          rw [hf, countP_set_same (fun w => w.finished) s.writers i ⟨true, true⟩ w hq
            (by simpa using hfin)]
        · have hst : s.step (MPEvent.dropE i)
              = ⟨s.rb.mark_as_finished, s.writers.set i ⟨true, true⟩⟩ := by
            simp [MPSystem.step, hq, hd, hfin]
          rw [hst]
          refine ⟨by simpa using hp, ?_⟩
          show (s.rb.finish_count + 1) % USIZE
              = ((s.writers.set i ⟨true, true⟩).countP fun w => w.finished) % USIZE
          rw [hf, Nat.mod_add_mod,
            countP_set_flip (fun w => w.finished) s.writers i ⟨true, true⟩ w hq
              (by simpa using hfin) rfl]

/-- Helper: a run of any trace satisfies the bookkeeping invariant. -/
theorem run_goodCounts {T : Type} {N : Nat} (es : List (MPEvent T)) :
    MPSystem.goodCounts (MPSystem.run T N es) := by
  have key : ∀ (es : List (MPEvent T)) (s : MPSystem T N),
      MPSystem.goodCounts s → MPSystem.goodCounts (es.foldl MPSystem.step s) := by
    intro es
    induction es with
    | nil => exact fun s h => h
    | cons e es ih => exact fun s h => ih _ (step_goodCounts s e h)
  exact key es _ (by simp [MPSystem.init, MPSystem.goodCounts, MPRingBuffer.new])

/-- Helper: one step creates at most one writer handle. -/
theorem step_writers_le {T : Type} {N : Nat} (s : MPSystem T N) (e : MPEvent T) :
    (s.step e).writers.length ≤ s.writers.length + 1 := by
  cases e with
  | splitE => simp [MPSystem.step]
  | putE v => simp [MPSystem.step]
  | cloneE i =>
    cases hq : s.writers[i]? with
    | none => simp [MPSystem.step, hq]
    | some w =>
      by_cases hd : w.dropped <;> simp [MPSystem.step, hq, hd]
  | markE i =>
    cases hq : s.writers[i]? with
    | none => simp [MPSystem.step, hq]
    | some w =>
      by_cases hd : w.dropped
      · simp [MPSystem.step, hq, hd]
      · by_cases hfin : w.finished <;> simp [MPSystem.step, hq, hd, hfin]
  | dropE i =>
    cases hq : s.writers[i]? with
    | none => simp [MPSystem.step, hq]
    | some w =>
      by_cases hd : w.dropped
      · simp [MPSystem.step, hq, hd]
      · by_cases hfin : w.finished <;> simp [MPSystem.step, hq, hd, hfin]

/-- Helper: a run of `es` creates at most `es.length` writer handles. -/
theorem run_writers_le {T : Type} {N : Nat} (es : List (MPEvent T)) :
    (MPSystem.run T N es).writers.length ≤ es.length := by
  have key : ∀ (es : List (MPEvent T)) (s : MPSystem T N),
      (es.foldl MPSystem.step s).writers.length ≤ s.writers.length + es.length := by
    intro es
    induction es with
    | nil => exact fun s => le_refl _
    | cons e es ih =>
      intro s
      calc (es.foldl MPSystem.step (s.step e)).writers.length
          ≤ (s.step e).writers.length + es.length := ih _
        _ ≤ s.writers.length + 1 + es.length :=
            Nat.add_le_add_right (step_writers_le s e) _
        _ = s.writers.length + (e :: es).length := by simp; omega
  simpa [MPSystem.run, MPSystem.init] using key es (MPSystem.init T N)

/-- C2 counterexample: after one `split` followed by an explicit
`mark_as_finished` (no handle destroyed), the container already reports
finished even though the writer handle still exists, and the subsequent
destruction of that handle does not increment `finish_count` at all. -/
theorem mp_finished_without_drop :
    (MPSystem.run Nat 2 [MPEvent.splitE, MPEvent.markE 0]).rb.is_finished = true
    ∧ (MPSystem.run Nat 2 [MPEvent.splitE, MPEvent.markE 0]).allDropped = false
    ∧ (MPSystem.run Nat 2
          [MPEvent.splitE, MPEvent.markE 0, MPEvent.dropE 0]).rb.finish_count
        = (MPSystem.run Nat 2 [MPEvent.splitE, MPEvent.markE 0]).rb.finish_count := by
  refine ⟨rfl, rfl, rfl⟩

/-- C2 (amended): `split` and every clone of a live multi-writer handle
increment `producer_count` by exactly one; a writer increments
`finish_count` exactly once, at its first explicit `mark_as_finished`
(later marks add nothing) or else at destruction (destroying an
already-finished writer adds nothing); `is_finished` holds iff
`finish_count == producer_count`; and the finished predicate becomes
true only once every writer handle ever created has been marked
finished, explicitly or by destruction. -/
theorem mp_writer_accounting (T : Type) (N : Nat) :
    (∀ s : MPSystem T N,
        (s.step MPEvent.splitE).rb.producer_count
          = (s.rb.producer_count + 1) % USIZE)
    ∧ (∀ (s : MPSystem T N) (i : Nat) (w : WriterHandle),
        s.writers[i]? = some w → w.dropped = false →
          (s.step (MPEvent.cloneE i)).rb.producer_count
            = (s.rb.producer_count + 1) % USIZE)
    ∧ (∀ (s : MPSystem T N) (i : Nat) (w : WriterHandle),
        s.writers[i]? = some w → w.dropped = false → w.finished = false →
          (s.step (MPEvent.markE i)).rb.finish_count
            = (s.rb.finish_count + 1) % USIZE)
    ∧ (∀ (s : MPSystem T N) (i : Nat) (w : WriterHandle),
        s.writers[i]? = some w → w.dropped = false → w.finished = true →
          (s.step (MPEvent.markE i)).rb.finish_count = s.rb.finish_count)
    ∧ (∀ (s : MPSystem T N) (i : Nat) (w : WriterHandle),
        s.writers[i]? = some w → w.dropped = false → w.finished = false →
          (s.step (MPEvent.dropE i)).rb.finish_count
            = (s.rb.finish_count + 1) % USIZE)
    ∧ (∀ (s : MPSystem T N) (i : Nat) (w : WriterHandle),
        s.writers[i]? = some w → w.dropped = false → w.finished = true →
          (s.step (MPEvent.dropE i)).rb.finish_count = s.rb.finish_count)
    ∧ (∀ rb : MPRingBuffer T N,
        rb.is_finished = true ↔ rb.finish_count = rb.producer_count)
    ∧ (∀ es : List (MPEvent T), es.length < USIZE →
        (MPSystem.run T N es).rb.is_finished = true →
          ∀ w ∈ (MPSystem.run T N es).writers, w.finished = true) := by
  refine ⟨fun s => rfl, ?_, ?_, ?_, ?_, ?_,
    fun rb => by simp [MPRingBuffer.is_finished], ?_⟩
  · intro s i w hq hd
    have hst : s.step (MPEvent.cloneE i)
        = ⟨s.rb.addProducer, s.writers ++ [⟨false, false⟩]⟩ := by
      simp [MPSystem.step, hq, hd]
    rw [hst]
    rfl
  · intro s i w hq hd hfin
    have hst : s.step (MPEvent.markE i)
        = ⟨s.rb.mark_as_finished, s.writers.set i ⟨true, false⟩⟩ := by
      simp [MPSystem.step, hq, hd, hfin]
    rw [hst]
    rfl
  · intro s i w hq hd hfin
    have hst : s.step (MPEvent.markE i) = s := by
      simp [MPSystem.step, hq, hd, hfin]
    rw [hst]
  · intro s i w hq hd hfin
    have hst : s.step (MPEvent.dropE i)
        = ⟨s.rb.mark_as_finished, s.writers.set i ⟨true, true⟩⟩ := by
      simp [MPSystem.step, hq, hd, hfin]
    rw [hst]
    rfl
  · intro s i w hq hd hfin
    have hst : s.step (MPEvent.dropE i) = ⟨s.rb, s.writers.set i ⟨true, true⟩⟩ := by
      simp [MPSystem.step, hq, hd, hfin]
    rw [hst]
  · intro es hlen hfin
    obtain ⟨hp, hf⟩ := run_goodCounts (T := T) (N := N) es
    have hlw : (MPSystem.run T N es).writers.length ≤ es.length := run_writers_le es
    have hcp : ((MPSystem.run T N es).writers.countP fun w => w.finished)
        ≤ (MPSystem.run T N es).writers.length := List.countP_le_length _
    have hfc := hfin
    simp only [MPRingBuffer.is_finished, beq_iff_eq] at hfc
    rw [hp, hf] at hfc
    have hlt1 : (MPSystem.run T N es).writers.length < USIZE := by omega
    have hlt2 : ((MPSystem.run T N es).writers.countP fun w => w.finished) < USIZE := by
      omega
    rw [Nat.mod_eq_of_lt hlt2, Nat.mod_eq_of_lt hlt1] at hfc
    exact fun w hw => List.countP_eq_length.mp hfc w hw

/-- Witness for the amended C2: on the not-yet-finished writer obtained
from a single `split`, the first explicit `mark_as_finished` increments
`finish_count` by exactly one, and so does destruction without a prior
mark. -/
theorem mp_writer_accounting_witness :
    ((MPSystem.run Nat 2 [MPEvent.splitE]).step (MPEvent.markE 0)).rb.finish_count
        = ((MPSystem.run Nat 2 [MPEvent.splitE]).rb.finish_count + 1) % USIZE
    ∧ ((MPSystem.run Nat 2 [MPEvent.splitE]).step (MPEvent.dropE 0)).rb.finish_count
        = ((MPSystem.run Nat 2 [MPEvent.splitE]).rb.finish_count + 1) % USIZE :=
  ⟨(mp_writer_accounting Nat 2).2.2.1 (MPSystem.run Nat 2 [MPEvent.splitE]) 0
      ⟨false, false⟩ rfl rfl rfl,
   (mp_writer_accounting Nat 2).2.2.2.2.1 (MPSystem.run Nat 2 [MPEvent.splitE]) 0
      ⟨false, false⟩ rfl rfl rfl⟩

end HyperRing
